import Mathlib

/-!
Shallow embedding of `src/markdown_to_json.py`: a markdown-to-structured-book
parser.  Pure string helpers (`normalize_whitespace`, `split_sentences`,
`extract_notes`) are modelled as structurally recursive functions on `List Char`;
the stateful line loop of `parse_markdown` is modelled as a fold over an explicit
parser state.
-/

namespace MD

/-- Python whitespace (`str.isspace` / regex `\s` on `str`): ASCII whitespace,
the C1 separator controls, NEL and the Unicode space separators. -/
def isPySpace (c : Char) : Bool :=
  c == ' ' || c == '\t' || c == '\n' || c == '\r' || c == '\x0b' || c == '\x0c' ||
  c == '\x1c' || c == '\x1d' || c == '\x1e' || c == '\x1f' || c == '\x85' ||
  c == '\xa0' || c == '\u1680' ||
  ('\u2000' ≤ c && c ≤ '\u200a') ||
  c == '\u2028' || c == '\u2029' || c == '\u202f' || c == '\u205f' || c == '\u3000'

/-- Sentence terminators of `SENTENCE_PATTERN = [^.!?]+[.!?]?\s*`. -/
def isTerm (c : Char) : Bool :=
  c == '.' || c == '!' || c == '?'

/-- Line-boundary characters of Python `str.splitlines`. -/
def isLineBreak (c : Char) : Bool :=
  c == '\n' || c == '\r' || c == '\x0b' || c == '\x0c' ||
  c == '\x1c' || c == '\x1d' || c == '\x1e' || c == '\x85' ||
  c == '\u2028' || c == '\u2029'

/-- One pass of `re.sub(r"\s+", " ", text)`: each maximal whitespace run becomes
one space.  The flag records whether we are inside a run already emitted. -/
def collapseGo : Bool → List Char → List Char
  | _, [] => []
  | inRun, c :: rest =>
    if isPySpace c then
      if inRun then collapseGo true rest else ' ' :: collapseGo true rest
    else
      c :: collapseGo false rest

/-- `re.sub(r"\s+", " ", text)`. -/
def collapse (cs : List Char) : List Char :=
  collapseGo false cs

/-- Python `str.lstrip()`. -/
def lstrip (cs : List Char) : List Char :=
  cs.dropWhile isPySpace

/-- Python `str.rstrip()`: drop trailing whitespace. -/
def rstrip : List Char → List Char
  | [] => []
  | c :: rest =>
    match rstrip rest with
    | [] => if isPySpace c then [] else [c]
    | r => c :: r

/-- Python `str.strip()`. -/
def pyStrip (cs : List Char) : List Char :=
  rstrip (lstrip cs)

/-- Python `str.strip()` at the `String` level. -/
def pyStripStr (s : String) : String :=
  ⟨pyStrip s.data⟩

/-- `normalize_whitespace(text) = re.sub(r"\s+", " ", text).strip()`. -/
def normalize_whitespace (s : String) : String :=
  ⟨pyStrip (collapse s.data)⟩

/-- Scanner state for `SENTENCE_PATTERN.findall`: `none` means we are between
matches; `some (acc, afterTerm)` means `acc` (reversed) is the current match,
and `afterTerm` tells whether the optional terminator has been consumed. -/
def sentScan : List Char → Option (List Char × Bool) → List (List Char)
  | [], none => []
  | [], some (acc, _) => [acc.reverse]
  | c :: rest, none =>
    if isTerm c then sentScan rest none
    else sentScan rest (some ([c], false))
  | c :: rest, some (acc, false) =>
    if isTerm c then sentScan rest (some (c :: acc, true))
    else sentScan rest (some (c :: acc, false))
  | c :: rest, some (acc, true) =>
    if isPySpace c then sentScan rest (some (c :: acc, true))
    else
      acc.reverse ::
        (if isTerm c then sentScan rest none else sentScan rest (some ([c], false)))

/-- `SENTENCE_PATTERN.findall(paragraph)`: maximal runs of non-terminators,
followed by at most one terminator and any following whitespace. -/
def sentFindall (cs : List Char) : List (List Char) :=
  sentScan cs none

/-- `split_sentences(paragraph)`. -/
def split_sentences (s : String) : List String :=
  let paragraph := pyStrip s.data
  if paragraph = [] then []
  else
    ((sentFindall paragraph).map fun m => normalize_whitespace ⟨m⟩).filter
      fun t => t != ""

/-- The post-processing of `split_sentences`: normalize every raw match and
drop the empty results (`[normalize_whitespace(m) for m in ...]` + filter). -/
def nfMatches (l : List (List Char)) : List String :=
  (l.map fun m => normalize_whitespace ⟨m⟩).filter fun t => t != ""

/-- Scanner state for `FOOTNOTE_REF_RE = \[\^([^\]]+)\]` substitution:
outside a candidate, just after `[`, or inside the bracket body (reversed). -/
inductive RefState where
  | outside : RefState
  | sawB : RefState
  | body : List Char → RefState

/-- `FOOTNOTE_REF_RE.sub(replacer, s)`: removes every `[^ident]` marker and
collects the trimmed idents, left to right. -/
def refGo : List Char → RefState → List Char × List String
  | [], .outside => ([], [])
  | [], .sawB => (['['], [])
  | [], .body acc => ('[' :: '^' :: acc.reverse, [])
  | c :: rest, .outside =>
    if c = '[' then refGo rest .sawB
    else
      let (out, ns) := refGo rest .outside
      (c :: out, ns)
  | c :: rest, .sawB =>
    if c = '^' then refGo rest (.body [])
    else if c = '[' then
      let (out, ns) := refGo rest .sawB
      ('[' :: out, ns)
    else
      let (out, ns) := refGo rest .outside
      ('[' :: c :: out, ns)
  | c :: rest, .body acc =>
    if c = ']' then
      if acc.isEmpty then
        let (out, ns) := refGo rest .outside
        ('[' :: '^' :: ']' :: out, ns)
      else
        let (out, ns) := refGo rest .outside
        (out, (⟨pyStrip acc.reverse⟩ : String) :: ns)
    else refGo rest (.body (c :: acc))

/-- Scanner state for `INLINE_FOOTNOTE_RE = \[(footnote:[^\]]+)\]` (IGNORECASE):
outside a candidate; matching the literal `footnote:` (chars seen so far in
original case, remaining lowercase pattern); or in the bracket body. -/
inductive InlState where
  | outside : InlState
  | lit : List Char → List Char → InlState
  | body : List Char → List Char → InlState

/-- `INLINE_FOOTNOTE_RE.sub(replacer, s)`: removes every `[footnote:ident]`
marker (`footnote` case-insensitive) and collects the trimmed whole bracket
contents, left to right. -/
def inlGo : List Char → InlState → List Char × List String
  | [], .outside => ([], [])
  | [], .lit seen _ => ('[' :: seen.reverse, [])
  | [], .body seen acc => ('[' :: seen.reverse ++ acc.reverse, [])
  | c :: rest, .outside =>
    if c = '[' then inlGo rest (.lit [] ('f' :: 'o' :: 'o' :: 't' :: 'n' :: 'o' :: 't' :: 'e' :: ':' :: []))
    else
      let (out, ns) := inlGo rest .outside
      (c :: out, ns)
  | c :: rest, .lit seen rem =>
    match rem with
    | [] =>
      -- literal fully matched: first body character
      if c = ']' then
        -- empty body: the candidate fails, everything is literal
        let (out, ns) := inlGo rest .outside
        ('[' :: seen.reverse ++ ']' :: out, ns)
      else inlGo rest (.body seen [c])
    | r :: rem1 =>
      if c.toLower = r then inlGo rest (.lit (c :: seen) rem1)
      else if c = '[' then
        let (out, ns) := inlGo rest (.lit [] ('f' :: 'o' :: 'o' :: 't' :: 'n' :: 'o' :: 't' :: 'e' :: ':' :: []))
        ('[' :: seen.reverse ++ out, ns)
      else
        let (out, ns) := inlGo rest .outside
        ('[' :: seen.reverse ++ c :: out, ns)
  | c :: rest, .body seen acc =>
    if c = ']' then
      let (out, ns) := inlGo rest .outside
      (out, (⟨pyStrip (seen.reverse ++ acc.reverse)⟩ : String) :: ns)
    else inlGo rest (.body seen (c :: acc))

/-- `extract_notes(sentence)`: both substitution passes, notes of the first
pass before notes of the second, and the cleaned text whitespace-normalized. -/
def extract_notes (s : String) : String × List String :=
  let (c1, ns1) := refGo s.data .outside
  let (c2, ns2) := inlGo c1 .outside
  (normalize_whitespace ⟨c2⟩, ns1 ++ ns2)

/-- `BY_LINE_RE = ^by\s+(.+)$` (IGNORECASE), `re.match` on a single line
(no newline in the input): returns the captured group. -/
def byMatch : List Char → Option (List Char)
  | b :: y :: rest =>
    if b.toLower = 'b' ∧ y.toLower = 'y' then
      let ws := rest.takeWhile isPySpace
      let tl := rest.dropWhile isPySpace
      if ws = [] then none
      else if tl ≠ [] then some tl
      else if 2 ≤ ws.length then some [ws.getLastD ' ']
      else none
    else none
  | _ => none

/-- `HEADING_RE = ^(#+)\s+(.*)$`, `re.match` on a trailing-stripped line:
returns the heading level and the raw text group. -/
def headingMatch (line : List Char) : Option (Nat × List Char) :=
  let hashes := line.takeWhile fun c => c = '#'
  let rest := line.dropWhile fun c => c = '#'
  if hashes = [] then none
  else if rest.takeWhile isPySpace = [] then none
  else some (hashes.length, rest.dropWhile isPySpace)

/-- Python `str.splitlines()`; `acc` holds the current line reversed. -/
def pySplitlinesGo : List Char → List Char → List String
  | [], acc => if acc = [] then [] else [⟨acc.reverse⟩]
  | '\r' :: '\n' :: rest, acc => (⟨acc.reverse⟩ : String) :: pySplitlinesGo rest []
  | c :: rest, acc =>
    if isLineBreak c then (⟨acc.reverse⟩ : String) :: pySplitlinesGo rest []
    else pySplitlinesGo rest (c :: acc)

/-- Python `str.splitlines()`. -/
def pySplitlines (s : String) : List String :=
  pySplitlinesGo s.data []

/-- Python `" ".join(items)`. -/
def joinSpace : List String → String
  | [] => ""
  | [s] => s
  | s :: rest => s ++ " " ++ joinSpace rest

/-- Python `stripped.startswith("- ")`. -/
def startsWithDash : List Char → Bool
  | '-' :: ' ' :: _ => true
  | _ => false

/-- Python `book_title or "Section 1"`: `None` and the empty string are falsy. -/
def pyOr (o : Option String) (d : String) : String :=
  match o with
  | some t => if t = "" then d else t
  | none => d

/-- A sentence entry: the `notes` key is present in the JSON output iff the
list is nonempty (`if notes: sentence_entry["notes"] = notes`). -/
structure Sentence where
  sentence_number : Nat
  text : String
  notes : List String
deriving Repr, DecidableEq

/-- A paragraph entry. -/
structure Paragraph where
  paragraph_number : Nat
  sentences : List Sentence
deriving Repr, DecidableEq

/-- A chapter entry. -/
structure Chapter where
  chapter_number : Nat
  chapter_title : String
  paragraphs : List Paragraph
deriving Repr, DecidableEq

/-- The book record built by `parse_markdown`: `metadata` is present in the
output iff `book_metadata` is nonempty, which happens iff its only possible
key `authors` was set; so it is modelled as the optional author list. -/
structure Book where
  title : String
  chapters : List Chapter
  metadata : Option (List String)
deriving Repr, DecidableEq

/-- The mutable locals of `parse_markdown`: `current` is the index in
`chapters` of the chapter aliased by Python's `current_chapter`. -/
structure ParseState where
  book_title : Option String
  authors : Option (List String)
  chapters : List Chapter
  current : Option Nat
  paragraph_lines : List String
deriving Repr, DecidableEq

/-- `for number, sentence in enumerate(sentences_raw, start=1)` with
`extract_notes` applied to each sentence. -/
def mkSentences : List String → Nat → List Sentence
  | [], _ => []
  | s :: rest, n =>
    ⟨n, (extract_notes s).1, (extract_notes s).2⟩ :: mkSentences rest (n + 1)

/-- Apply `f` to the element at index `i` (Python mutation of the aliased
`current_chapter` dict inside the `chapters` list). -/
def modifyAt (f : Chapter → Chapter) : Nat → List Chapter → List Chapter
  | _, [] => []
  | 0, c :: rest => f c :: rest
  | i + 1, c :: rest => c :: modifyAt f i rest

/-- `flush_paragraph()` from `parse_markdown`. -/
def flush_paragraph (st : ParseState) : ParseState :=
  match st.current with
  | none => { st with paragraph_lines := [] }
  | some i =>
    let paragraph_text :=
      joinSpace ((st.paragraph_lines.map pyStripStr).filter fun l => l != "")
    let st1 := { st with paragraph_lines := ([] : List String) }
    if paragraph_text = "" then st1
    else
      let sentences := mkSentences (split_sentences paragraph_text) 1
      if sentences = [] then st1
      else
        { st1 with
            chapters :=
              modifyAt
                (fun ch =>
                  { ch with
                      paragraphs :=
                        ch.paragraphs ++
                          [⟨ch.paragraphs.length + 1, sentences⟩] })
                i st1.chapters }

/-- `ensure_chapter(current_chapter, chapters, fallback_title)` fused with the
caller's assignment `current_chapter = ensure_chapter(...)`. -/
def ensure_chapter (st : ParseState) (fallback_title : String) : ParseState :=
  match st.current with
  | some _ => st
  | none =>
    { st with
        chapters := st.chapters ++ [⟨st.chapters.length + 1, fallback_title, []⟩],
        current := some st.chapters.length }

/-- The author-recording snippet duplicated at both `BY_LINE_RE` sites:
`if by_match and "authors" not in book_metadata: book_metadata["authors"] = [...]`. -/
def recordAuthor (st : ParseState) (candidate : List Char) : ParseState :=
  match byMatch candidate with
  | some name =>
    if st.authors = none then
      { st with authors := some [normalize_whitespace ⟨name⟩] }
    else st
  | none => st

/-- The body of the `for raw_line in lines` loop of `parse_markdown`. -/
def processLine (st : ParseState) (raw_line : String) : ParseState :=
  let line : List Char := rstrip raw_line.data
  match headingMatch line with
  | some (level, text0) =>
    let st := flush_paragraph st
    let heading_text : String := ⟨pyStrip text0⟩
    if st.book_title = none ∧ level = 1 then
      { st with book_title := some heading_text, current := none }
    else
      let st := recordAuthor st heading_text.data
      { st with
          chapters := st.chapters ++ [⟨st.chapters.length + 1, heading_text, []⟩],
          current := some st.chapters.length }
  | none =>
    let stripped : List Char := pyStrip line
    if stripped = [] then flush_paragraph st
    else
      let st := recordAuthor st stripped
      if startsWithDash stripped then
        let st := ensure_chapter st (pyOr st.book_title "Section 1")
        let st := flush_paragraph st
        let st := { st with paragraph_lines := [(⟨stripped⟩ : String)] }
        flush_paragraph st
      else
        let st := ensure_chapter st (pyOr st.book_title "Section 1")
        { st with paragraph_lines := st.paragraph_lines ++ [(⟨line⟩ : String)] }

/-- `parse_markdown(markdown_text)` (the `{"book": ...}` wrapper left to the
I/O layer; the returned record is the book object). -/
def parse_markdown (markdown_text : String) : Book :=
  let lines := pySplitlines markdown_text
  let st := lines.foldl processLine ⟨none, none, [], none, []⟩
  let st := flush_paragraph st
  ⟨st.book_title.getD "Untitled", st.chapters, st.authors⟩

/-- Every whitespace character is a plain space followed by a
non-whitespace character (or the end): the shape `re.sub(r"\s+", " ", ·)`
leaves behind. -/
def noRuns : List Char → Bool
  | [] => true
  | [c] => !isPySpace c || c == ' '
  | a :: b :: rest =>
    (if isPySpace a then a == ' ' && !isPySpace b else true) && noRuns (b :: rest)

/-- The list does not start with whitespace. -/
def noLead : List Char → Bool
  | [] => true
  | c :: _ => !isPySpace c

/-- The list does not end with whitespace. -/
def noTrail : List Char → Bool
  | [] => true
  | [c] => !isPySpace c
  | _ :: rest => noTrail rest

/-- No occurrence of `[` immediately followed by `^` (so the
`FOOTNOTE_REF_RE` pass can match nothing). -/
def noHat : List Char → Bool
  | a :: b :: rest => if a = '[' ∧ b = '^' then false else noHat (b :: rest)
  | _ => true

/-- Sentence numbers are exactly `1, 2, ...` in order. -/
def paraOK (p : Paragraph) : Prop :=
  p.sentences.map Sentence.sentence_number = List.range' 1 p.sentences.length

/-- Paragraph numbers are exactly `1, 2, ...` in order, and every
paragraph is internally numbered. -/
def chapOK (ch : Chapter) : Prop :=
  ch.paragraphs.map Paragraph.paragraph_number = List.range' 1 ch.paragraphs.length ∧
    ∀ p ∈ ch.paragraphs, paraOK p

/-- Chapter numbers are exactly `1, 2, ...` in order, and every chapter is
internally numbered. -/
def chaptersOK (chs : List Chapter) : Prop :=
  chs.map Chapter.chapter_number = List.range' 1 chs.length ∧
    ∀ ch ∈ chs, chapOK ch

/-- The three-level strictly-increasing-from-1 numbering invariant of a book. -/
def bookOK (b : Book) : Prop :=
  chaptersOK b.chapters

/-! ### Whitespace normalization: structural lemmas -/

theorem rstrip_cons (c : Char) (rest : List Char) :
    rstrip (c :: rest) =
      match rstrip rest with
      | [] => if isPySpace c then [] else [c]
      | r => c :: r := rfl

theorem noLead_collapseGo_true (cs : List Char) : noLead (collapseGo true cs) := by
  induction cs with
  | nil => rfl
  | cons c rest ih =>
    by_cases h : isPySpace c
    · simpa [collapseGo, h] using ih
    · simp [collapseGo, h, noLead]

theorem noRuns_tail {a : Char} {rest : List Char} (h : noRuns (a :: rest)) :
    noRuns rest := by
  cases rest with
  | nil => rfl
  | cons b t =>
    simp only [noRuns, Bool.and_eq_true] at h
    exact h.2

theorem noRuns_cons {c : Char} {X : List Char}
    (hc : isPySpace c = false ∨ (c = ' ' ∧ noLead X))
    (hX : noRuns X) : noRuns (c :: X) := by
  cases X with
  | nil =>
    rcases hc with h | ⟨h, _⟩ <;> simp [noRuns, h]
  | cons d t =>
    rcases hc with h | ⟨h, hlead⟩
    · simpa [noRuns, h] using hX
    · subst h
      simp only [noLead] at hlead
      simp [noRuns, hX, hlead]

theorem noRuns_collapseGo (b : Bool) (cs : List Char) : noRuns (collapseGo b cs) := by
  induction cs generalizing b with
  | nil => rfl
  | cons c rest ih =>
    by_cases h : isPySpace c
    · cases b with
      | true => simpa [collapseGo, h] using ih true
      | false =>
        simp only [collapseGo, h, if_pos, if_true]
        exact noRuns_cons (Or.inr ⟨rfl, noLead_collapseGo_true rest⟩) (ih true)
    · simp only [collapseGo, h, if_neg, Bool.false_eq_true, if_false]
      exact noRuns_cons (Or.inl (by simpa using h)) (ih false)

theorem collapseGo_eq_self {cs : List Char} (h : noRuns cs) :
    collapseGo false cs = cs := by
  induction cs with
  | nil => rfl
  | cons c rest ih =>
    cases rest with
    | nil =>
      by_cases hc : isPySpace c
      · have hsp : c = ' ' := by
          simp only [noRuns, hc, Bool.not_true, Bool.false_or, beq_iff_eq] at h
          exact h
        subst hsp
        simp [collapseGo, collapseGo, hc]
      · simp [collapseGo, hc]
    | cons d t =>
      have htail : noRuns (d :: t) := noRuns_tail h
      by_cases hc : isPySpace c
      · have hcd : c = ' ' ∧ isPySpace d = false := by
          simp only [noRuns, hc, if_pos, Bool.and_eq_true, beq_iff_eq,
            Bool.not_eq_true'] at h
          exact ⟨h.1.1, h.1.2⟩
        obtain ⟨hsp, hd⟩ := hcd
        subst hsp
        have := ih htail
        simp only [collapseGo, hd, Bool.false_eq_true, if_false] at this ⊢
        simp only [hc, if_pos, if_true]
        simp [collapseGo, hd] at this ⊢
        exact this
      · simpa [collapseGo, hc] using ih htail

theorem noLead_lstrip (cs : List Char) : noLead (lstrip cs) := by
  induction cs with
  | nil => rfl
  | cons c rest ih =>
    by_cases h : isPySpace c
    · simpa [lstrip, List.dropWhile_cons, h] using ih
    · simp [lstrip, List.dropWhile_cons, h, noLead]

theorem lstrip_eq_self {cs : List Char} (h : noLead cs) : lstrip cs = cs := by
  cases cs with
  | nil => rfl
  | cons c rest =>
    simp only [noLead, Bool.not_eq_true'] at h
    simp [lstrip, List.dropWhile_cons, h]

theorem noRuns_lstrip {cs : List Char} (h : noRuns cs) : noRuns (lstrip cs) := by
  induction cs with
  | nil => exact h
  | cons c rest ih =>
    by_cases hc : isPySpace c
    · simpa [lstrip, List.dropWhile_cons, hc] using ih (noRuns_tail h)
    · simpa [lstrip, List.dropWhile_cons, hc] using h

theorem noTrail_rstrip (cs : List Char) : noTrail (rstrip cs) := by
  induction cs with
  | nil => rfl
  | cons c rest ih =>
    simp only [rstrip]
    cases h : rstrip rest with
    | nil =>
      by_cases hc : isPySpace c <;> simp [hc, noTrail]
    | cons d t =>
      rw [h] at ih
      cases t <;> simpa [noTrail] using ih

theorem rstrip_eq_self {cs : List Char} (h : noTrail cs) : rstrip cs = cs := by
  induction cs with
  | nil => rfl
  | cons c rest ih =>
    cases rest with
    | nil =>
      simp only [noTrail, Bool.not_eq_true'] at h
      simp [rstrip, h]
    | cons d t =>
      have h2 : rstrip (d :: t) = d :: t := ih (by simpa [noTrail] using h)
      rw [rstrip_cons, h2]

theorem rstrip_head (c : Char) (rest : List Char) :
    rstrip (c :: rest) = [] ∨ ∃ t, rstrip (c :: rest) = c :: t := by
  simp only [rstrip]
  cases rstrip rest with
  | nil =>
    by_cases hc : isPySpace c
    · exact Or.inl (by simp [hc])
    · exact Or.inr ⟨[], by simp [hc]⟩
  | cons d t => exact Or.inr ⟨d :: t, rfl⟩

theorem noLead_rstrip {cs : List Char} (h : noLead cs) : noLead (rstrip cs) := by
  cases cs with
  | nil => exact h
  | cons c rest =>
    rcases rstrip_head c rest with h1 | ⟨t, h1⟩ <;> rw [h1]
    · rfl
    · simpa [noLead] using h

theorem noRuns_rstrip {cs : List Char} (h : noRuns cs) : noRuns (rstrip cs) := by
  induction cs with
  | nil => exact h
  | cons c rest ih =>
    simp only [rstrip]
    cases h1 : rstrip rest with
    | nil =>
      by_cases hc : isPySpace c
      · simp [hc, noRuns]
      · simp [noRuns, hc]
    | cons d t =>
      have hrest : rest ≠ [] := by
        intro hnil; rw [hnil] at h1; exact absurd h1 (by simp [rstrip])
      obtain ⟨e, es, rfl⟩ := List.exists_cons_of_ne_nil hrest
      have hde : d = e := by
        rcases rstrip_head e es with h2 | ⟨t2, h2⟩ <;> rw [h2] at h1
        · exact absurd h1 (by simp)
        · exact (List.cons.injEq .. ▸ h1).1.symm
      subst hde
      have ihs : noRuns (d :: t) := by rw [← h1]; exact ih (noRuns_tail h)
      refine noRuns_cons ?_ ihs
      by_cases hc : isPySpace c
      · right
        simp only [noRuns, hc, if_pos, Bool.and_eq_true, beq_iff_eq,
          Bool.not_eq_true'] at h
        exact ⟨h.1.1, by simp [noLead, h.1.2]⟩
      · exact Or.inl (by simpa using hc)

theorem normChar_idem (cs : List Char) :
    pyStrip (collapse (pyStrip (collapse cs))) = pyStrip (collapse cs) := by
  have h1 : noRuns (collapse cs) := noRuns_collapseGo false cs
  have h2 : noRuns (pyStrip (collapse cs)) :=
    noRuns_rstrip (noRuns_lstrip h1)
  have h3 : noLead (pyStrip (collapse cs)) :=
    noLead_rstrip (noLead_lstrip (collapse cs))
  have h4 : noTrail (pyStrip (collapse cs)) := noTrail_rstrip _
  unfold pyStrip collapse at *
  rw [collapseGo_eq_self h2, lstrip_eq_self h3, rstrip_eq_self h4]

theorem data_mk (cs : List Char) : (⟨cs⟩ : String).data = cs := rfl

theorem normalize_idem (s : String) :
    normalize_whitespace (normalize_whitespace s) = normalize_whitespace s := by
  simp only [normalize_whitespace, data_mk]
  exact congrArg String.mk (normChar_idem s.data)

/-! ### Whitespace normalization commutes with stripping -/

theorem lstrip_collapseGo_true (cs : List Char) :
    lstrip (collapseGo true cs) = collapseGo false (lstrip cs) := by
  induction cs with
  | nil => rfl
  | cons c rest ih =>
    by_cases hc : isPySpace c
    · simpa [collapseGo, hc, lstrip, List.dropWhile_cons] using ih
    · simp [collapseGo, hc, lstrip, List.dropWhile_cons]

theorem lstrip_collapseGo_false (cs : List Char) :
    lstrip (collapseGo false cs) = collapseGo false (lstrip cs) := by
  cases cs with
  | nil => rfl
  | cons c rest =>
    by_cases hc : isPySpace c
    · simpa [collapseGo, hc, lstrip, List.dropWhile_cons] using
        lstrip_collapseGo_true rest
    · simp [collapseGo, hc, lstrip, List.dropWhile_cons]

theorem rstrip_collapseGo_nil {cs : List Char} (h : rstrip cs = []) :
    ∀ b, rstrip (collapseGo b cs) = [] := by
  induction cs with
  | nil => intro b; rfl
  | cons c rest ih =>
    intro b
    rw [rstrip_cons] at h
    cases h1 : rstrip rest with
    | cons d t => rw [h1] at h; exact absurd h (by simp)
    | nil =>
      rw [h1] at h
      by_cases hc : isPySpace c
      · have hrec := ih h1
        cases b with
        | true => simpa [collapseGo, hc] using hrec true
        | false =>
          simp only [collapseGo, hc, if_pos, if_true, Bool.false_eq_true, if_false]
          rw [rstrip_cons, hrec true]
          simp [isPySpace]
      · simp [hc] at h

theorem collapseGo_cons_true (c : Char) (rest : List Char) :
    collapseGo true (c :: rest) =
      if isPySpace c then collapseGo true rest else c :: collapseGo false rest := by
  by_cases hc : isPySpace c <;> simp [collapseGo, hc]

theorem collapseGo_cons_false (c : Char) (rest : List Char) :
    collapseGo false (c :: rest) =
      if isPySpace c then ' ' :: collapseGo true rest
      else c :: collapseGo false rest := by
  by_cases hc : isPySpace c <;> simp [collapseGo, hc]

theorem rstrip_collapseGo_rstrip (cs : List Char) :
    ∀ b, rstrip (collapseGo b (rstrip cs)) = rstrip (collapseGo b cs) := by
  induction cs with
  | nil => intro b; rfl
  | cons c rest ih =>
    intro b
    rw [rstrip_cons]
    cases h1 : rstrip rest with
    | nil =>
      have hnil : ∀ b2, rstrip (collapseGo b2 rest) = [] := rstrip_collapseGo_nil h1
      by_cases hc : isPySpace c
      · simp only [hc, if_pos, if_true]
        cases b with
        | true =>
          conv_rhs => rw [collapseGo_cons_true]
          simp only [hc, if_pos, if_true]
          rw [hnil true]
          rfl
        | false =>
          conv_rhs => rw [collapseGo_cons_false]
          simp only [hc, if_pos, if_true]
          rw [rstrip_cons, hnil true]
          simp [isPySpace, collapseGo, rstrip]
      · simp only [hc, Bool.false_eq_true, if_false]
        cases b with
        | true =>
          conv_lhs => rw [collapseGo_cons_true]
          conv_rhs => rw [collapseGo_cons_true]
          simp only [hc, Bool.false_eq_true, if_false]
          rw [rstrip_cons, rstrip_cons, hnil false]
          rfl
        | false =>
          conv_lhs => rw [collapseGo_cons_false]
          conv_rhs => rw [collapseGo_cons_false]
          simp only [hc, Bool.false_eq_true, if_false]
          rw [rstrip_cons, rstrip_cons, hnil false]
          rfl
    | cons d t =>
      by_cases hc : isPySpace c
      · cases b with
        | true =>
          conv_lhs => rw [collapseGo_cons_true]
          conv_rhs => rw [collapseGo_cons_true]
          simp only [hc, if_pos, if_true]
          rw [← h1]
          exact ih true
        | false =>
          conv_lhs => rw [collapseGo_cons_false]
          conv_rhs => rw [collapseGo_cons_false]
          simp only [hc, if_pos, if_true]
          rw [rstrip_cons, rstrip_cons, ← h1, ih true]
      · cases b with
        | true =>
          conv_lhs => rw [collapseGo_cons_true]
          conv_rhs => rw [collapseGo_cons_true]
          simp only [hc, Bool.false_eq_true, if_false]
          rw [rstrip_cons, rstrip_cons, ← h1, ih false]
        | false =>
          conv_lhs => rw [collapseGo_cons_false]
          conv_rhs => rw [collapseGo_cons_false]
          simp only [hc, Bool.false_eq_true, if_false]
          rw [rstrip_cons, rstrip_cons, ← h1, ih false]

theorem normChar_strip (cs : List Char) :
    pyStrip (collapse (pyStrip cs)) = pyStrip (collapse cs) := by
  unfold pyStrip collapse
  calc rstrip (lstrip (collapseGo false (rstrip (lstrip cs))))
      = rstrip (collapseGo false (lstrip (rstrip (lstrip cs)))) := by
        rw [lstrip_collapseGo_false]
    _ = rstrip (collapseGo false (rstrip (lstrip cs))) := by
        rw [lstrip_eq_self (noLead_rstrip (noLead_lstrip cs))]
    _ = rstrip (collapseGo false (lstrip cs)) := rstrip_collapseGo_rstrip (lstrip cs) false
    _ = rstrip (lstrip (collapseGo false cs)) := by rw [lstrip_collapseGo_false]

theorem normalize_pyStrip (s : String) :
    normalize_whitespace ⟨pyStrip s.data⟩ = normalize_whitespace s := by
  simp only [normalize_whitespace, data_mk]
  exact congrArg String.mk (normChar_strip s.data)

theorem normalize_empty_of_strip {s : String} (h : pyStrip s.data = []) :
    normalize_whitespace s = "" := by
  have h2 : pyStrip (collapse s.data) = [] := by
    unfold pyStrip collapse at *
    rw [lstrip_collapseGo_false]
    exact rstrip_collapseGo_nil h false
  simpa [normalize_whitespace] using congrArg String.mk h2

/-! ### The sentence scanner -/

theorem mem_lstrip {c : Char} {cs : List Char} (h : c ∈ lstrip cs) : c ∈ cs := by
  induction cs with
  | nil => exact h
  | cons d rest ih =>
    by_cases hd : isPySpace d
    · simp only [lstrip, List.dropWhile_cons, hd, if_pos, if_true] at h
      exact List.mem_cons_of_mem d (ih h)
    · simpa [lstrip, List.dropWhile_cons, hd] using h

theorem mem_rstrip {c : Char} {cs : List Char} (h : c ∈ rstrip cs) : c ∈ cs := by
  induction cs with
  | nil => exact h
  | cons d rest ih =>
    rw [rstrip_cons] at h
    cases h1 : rstrip rest with
    | nil =>
      rw [h1] at h
      by_cases hd : isPySpace d
      · simp [hd] at h
      · simp only [hd, Bool.false_eq_true, if_false, List.mem_singleton] at h
        simp [h]
    | cons e t =>
      rw [h1] at h
      rcases List.mem_cons.mp h with h2 | h2
      · simp [h2]
      · exact List.mem_cons_of_mem d (ih (h1 ▸ h2))

theorem sentScan_noTerm {cs : List Char} (h : ∀ c ∈ cs, isTerm c = false) :
    ∀ acc, sentScan cs (some (acc, false)) = [acc.reverse ++ cs] := by
  induction cs with
  | nil => intro acc; simp [sentScan]
  | cons c rest ih =>
    intro acc
    have hc : isTerm c = false := h c (List.mem_cons_self c rest)
    have hrest : ∀ d ∈ rest, isTerm d = false := fun d hd =>
      h d (List.mem_cons_of_mem c hd)
    simp only [sentScan, hc, Bool.false_eq_true, if_false]
    rw [ih hrest (c :: acc)]
    simp

theorem split_sentences_noTerm {s : String}
    (h : ∀ c ∈ s.data, isTerm c = false)
    (hne : normalize_whitespace s ≠ "") :
    split_sentences s = [normalize_whitespace s] := by
  have hp : pyStrip s.data ≠ [] := by
    intro h0
    exact hne (normalize_empty_of_strip h0)
  obtain ⟨c, rest, hcr⟩ := List.exists_cons_of_ne_nil hp
  have hsub : ∀ d ∈ pyStrip s.data, isTerm d = false := fun d hd =>
    h d (mem_lstrip (mem_rstrip hd))
  have hc : isTerm c = false := hsub c (by rw [hcr]; exact List.mem_cons_self c rest)
  have hrest : ∀ d ∈ rest, isTerm d = false := fun d hd =>
    hsub d (by rw [hcr]; exact List.mem_cons_of_mem c hd)
  have hfind : sentFindall (pyStrip s.data) = [pyStrip s.data] := by
    rw [hcr]
    unfold sentFindall
    simp only [sentScan, hc, Bool.false_eq_true, if_false]
    rw [sentScan_noTerm hrest [c]]
    simp
  have hnorm : normalize_whitespace ⟨pyStrip s.data⟩ = normalize_whitespace s :=
    normalize_pyStrip s
  simp only [split_sentences]
  rw [if_neg hp, hfind]
  simp only [List.map_cons, List.map_nil, hnorm]
  simp [List.filter_cons, hne]

theorem mem_split_sentences {p s : String} (h : s ∈ split_sentences p) :
    normalize_whitespace s = s ∧ s ≠ "" := by
  unfold split_sentences at h
  by_cases h0 : pyStrip p.data = []
  · simp [h0] at h
  · simp only [h0, if_false, List.mem_filter, List.mem_map, reduceCtorEq] at h
    obtain ⟨⟨m, _, rfl⟩, hne⟩ := h
    refine ⟨normalize_idem ⟨m⟩, ?_⟩
    simpa using hne

/-! ### The trailing unterminated fragment -/

theorem term_not_space {t : Char} (ht : isTerm t = true) : isPySpace t = false := by
  simp only [isTerm, Bool.or_eq_true, beq_iff_eq] at ht
  rcases ht with (h | h) | h <;> subst h <;> decide

theorem space_not_term {c : Char} (hc : isPySpace c = true) : isTerm c = false := by
  cases ht : isTerm c with
  | false => rfl
  | true => rw [term_not_space ht] at hc; exact absurd hc (by simp)

theorem lstrip_append_of_ne_nil {xs : List Char} (h : lstrip xs ≠ []) (ys : List Char) :
    lstrip (xs ++ ys) = lstrip xs ++ ys := by
  induction xs with
  | nil => exact absurd rfl h
  | cons c rest ih =>
    by_cases hc : isPySpace c
    · simp only [lstrip, List.cons_append, List.dropWhile_cons, hc, if_pos,
        if_true] at h ⊢
      exact ih h
    · simp [lstrip, List.cons_append, List.dropWhile_cons, hc]

theorem lstrip_exists_prefix {t : Char} (htns : isPySpace t = false)
    (W : List Char) : ∀ xs : List Char, ∃ q2, lstrip (xs ++ t :: W) = q2 ++ t :: W := by
  intro xs
  induction xs with
  | nil => exact ⟨[], by simp [lstrip, List.dropWhile_cons, htns]⟩
  | cons c rest ih =>
    by_cases hc : isPySpace c
    · obtain ⟨q2, hq2⟩ := ih
      exact ⟨q2, by simpa [lstrip, List.cons_append, List.dropWhile_cons, hc]
        using hq2⟩
    · exact ⟨c :: rest, by simp [lstrip, List.cons_append, List.dropWhile_cons, hc]⟩

theorem lstrip_allws_append {W : List Char} (hW : ∀ c ∈ W, isPySpace c = true)
    (m : List Char) : lstrip (W ++ m) = lstrip m := by
  induction W with
  | nil => rfl
  | cons w W2 ih =>
    have hw : isPySpace w = true := hW w (List.mem_cons_self w W2)
    simp only [List.cons_append, lstrip, List.dropWhile_cons, hw, if_pos, if_true]
    exact ih fun c hc => hW c (List.mem_cons_of_mem w hc)

theorem rstrip_nil_iff {cs : List Char} :
    rstrip cs = [] ↔ ∀ c ∈ cs, isPySpace c = true := by
  induction cs with
  | nil => simp [rstrip]
  | cons c rest ih =>
    rw [rstrip_cons]
    cases h1 : rstrip rest with
    | nil =>
      have hall := ih.mp h1
      by_cases hc : isPySpace c
      · simp only [hc, if_pos, if_true]
        constructor
        · intro _ d hd
          rcases List.mem_cons.mp hd with h | h
          · exact h ▸ hc
          · exact hall d h
        · intro _; trivial
      · simp only [hc, Bool.false_eq_true, if_false]
        constructor
        · intro h; exact absurd h (by simp)
        · intro h
          exact absurd (h c (List.mem_cons_self c rest)) (by simp [hc])
    | cons d t =>
      constructor
      · intro h; exact absurd h (by simp)
      · intro h
        have : rstrip rest = [] :=
          ih.mpr fun x hx => h x (List.mem_cons_of_mem c hx)
        rw [this] at h1
        exact absurd h1 (by simp)

theorem rstrip_cons_ne_nil {c : Char} (hc : isPySpace c = false)
    (rest : List Char) : rstrip (c :: rest) ≠ [] := by
  intro h
  have := rstrip_nil_iff.mp h c (List.mem_cons_self c rest)
  rw [hc] at this
  exact absurd this (by simp)

theorem rstrip_append_of_ne_nil {ys : List Char} (h : rstrip ys ≠ [])
    (xs : List Char) : rstrip (xs ++ ys) = xs ++ rstrip ys := by
  induction xs with
  | nil => rfl
  | cons c rest ih =>
    rw [List.cons_append, rstrip_cons, ih]
    cases h2 : rstrip ys with
    | nil => exact absurd h2 h
    | cons d t => simp

theorem rstrip_append_allws {W : List Char} (hW : ∀ c ∈ W, isPySpace c = true)
    (xs : List Char) : rstrip (xs ++ W) = rstrip xs := by
  induction xs with
  | nil => simpa using rstrip_nil_iff.mpr hW
  | cons c rest ih =>
    rw [List.cons_append, rstrip_cons, ih, rstrip_cons]

theorem exists_rstrip_decomp (cs : List Char) :
    ∃ T, cs = rstrip cs ++ T ∧ ∀ c ∈ T, isPySpace c = true := by
  induction cs with
  | nil => exact ⟨[], rfl, by simp⟩
  | cons c rest ih =>
    obtain ⟨T, hT, hall⟩ := ih
    rw [rstrip_cons]
    cases h1 : rstrip rest with
    | nil =>
      rw [h1, List.nil_append] at hT
      by_cases hc : isPySpace c
      · refine ⟨c :: T, ?_, ?_⟩
        · simp only [hc, if_pos, if_true, List.nil_append]
          rw [hT]
        · intro d hd
          rcases List.mem_cons.mp hd with h | h
          · exact h ▸ hc
          · exact hall d h
      · exact ⟨T, by simpa [hc] using congrArg (c :: ·) hT, hall⟩
    | cons d t =>
      rw [h1] at hT
      exact ⟨T, by simpa using congrArg (c :: ·) hT, hall⟩

theorem mem_collapseGo {c : Char} (hc : isPySpace c = false) :
    ∀ {cs : List Char}, c ∈ cs → ∀ b, c ∈ collapseGo b cs := by
  intro cs
  induction cs with
  | nil => intro h; exact absurd h (List.not_mem_nil c)
  | cons d rest ih =>
    intro h b
    by_cases hd : isPySpace d
    · have hin : c ∈ rest := by
        rcases List.mem_cons.mp h with h1 | h1
        · rw [h1] at hc; rw [hd] at hc; exact absurd hc (by simp)
        · exact h1
      cases b with
      | true => simpa [collapseGo, hd] using ih hin true
      | false =>
        simp only [collapseGo, hd, if_pos, if_true]
        exact List.mem_cons_of_mem ' ' (ih hin true)
    · rcases List.mem_cons.mp h with h1 | h1
      · rw [h1]
        simp [collapseGo, hd]
      · simp only [collapseGo, hd, Bool.false_eq_true, if_false]
        exact List.mem_cons_of_mem d (ih h1 false)

theorem mem_lstrip_of_not_ws {c : Char} (hc : isPySpace c = false) :
    ∀ {cs : List Char}, c ∈ cs → c ∈ lstrip cs := by
  intro cs
  induction cs with
  | nil => intro h; exact absurd h (List.not_mem_nil c)
  | cons d rest ih =>
    intro h
    by_cases hd : isPySpace d
    · have hin : c ∈ rest := by
        rcases List.mem_cons.mp h with h1 | h1
        · rw [h1] at hc; rw [hd] at hc; exact absurd hc (by simp)
        · exact h1
      simpa [lstrip, List.dropWhile_cons, hd] using ih hin
    · simpa [lstrip, List.dropWhile_cons, hd] using h

theorem normChar_ne_nil_of_mem {c : Char} {cs : List Char} (hin : c ∈ cs)
    (hc : isPySpace c = false) : pyStrip (collapse cs) ≠ [] := by
  intro h
  have h2 : ∀ d ∈ lstrip (collapse cs), isPySpace d = true := rstrip_nil_iff.mp h
  have h3 : c ∈ lstrip (collapse cs) :=
    mem_lstrip_of_not_ws hc (mem_collapseGo hc hin false)
  rw [h2 c h3] at hc
  exact absurd hc (by simp)

theorem normChar_allws {cs : List Char} (h : ∀ c ∈ cs, isPySpace c = true) :
    pyStrip (collapse cs) = [] := by
  unfold pyStrip collapse
  rw [lstrip_collapseGo_false]
  refine rstrip_collapseGo_nil ?_ false
  exact rstrip_nil_iff.mpr fun c hc => h c (mem_lstrip hc)

theorem normChar_append_allws {W : List Char} (hW : ∀ c ∈ W, isPySpace c = true)
    (m : List Char) : pyStrip (collapse (m ++ W)) = pyStrip (collapse m) := by
  by_cases hm : lstrip m = []
  · have hmw : ∀ c ∈ m, isPySpace c = true := by
      intro c hc
      by_cases h : isPySpace c
      · exact h
      · exact absurd (mem_lstrip_of_not_ws (by simpa using h) hc) (by simp [hm])
    have h1 : ∀ c ∈ m ++ W, isPySpace c = true := by
      intro c hc
      rcases List.mem_append.mp hc with h | h
      · exact hmw c h
      · exact hW c h
    rw [normChar_allws h1, normChar_allws hmw]
  · unfold pyStrip collapse
    rw [lstrip_collapseGo_false, lstrip_collapseGo_false,
      lstrip_append_of_ne_nil hm W, ← rstrip_collapseGo_rstrip (lstrip m ++ W) false,
      rstrip_append_allws hW, rstrip_collapseGo_rstrip (lstrip m) false]

theorem normChar_prepend_allws {W : List Char} (hW : ∀ c ∈ W, isPySpace c = true)
    (m : List Char) : pyStrip (collapse (W ++ m)) = pyStrip (collapse m) := by
  unfold pyStrip collapse
  rw [lstrip_collapseGo_false, lstrip_collapseGo_false, lstrip_allws_append hW]

theorem normalize_rstrip_data (f : String) :
    normalize_whitespace ⟨rstrip f.data⟩ = normalize_whitespace f := by
  obtain ⟨T, hT, hall⟩ := exists_rstrip_decomp f.data
  simp only [normalize_whitespace, data_mk]
  conv_rhs => rw [hT]
  exact congrArg String.mk (normChar_append_allws hall (rstrip f.data)).symm

theorem mk_eq_empty_iff {cs : List Char} : (⟨cs⟩ : String) = "" ↔ cs = [] :=
  ⟨fun h => congrArg String.data h, fun h => by rw [h]⟩

theorem nf_append (l1 l2 : List (List Char)) :
    nfMatches (l1 ++ l2) = nfMatches l1 ++ nfMatches l2 := by
  simp [nfMatches, List.filter_append]

theorem nf_cons_frag {A B : List (List Char)} {L : List String}
    (h : nfMatches A = nfMatches B ++ L) (x : List Char) :
    nfMatches (x :: A) = nfMatches (x :: B) ++ L := by
  have h1 : x :: A = [x] ++ A := rfl
  have h2 : x :: B = [x] ++ B := rfl
  rw [h1, h2, nf_append, nf_append, h, List.append_assoc]

theorem nf_single_congr {a b : List Char}
    (h : normalize_whitespace ⟨a⟩ = normalize_whitespace ⟨b⟩) :
    nfMatches [a] = nfMatches [b] := by
  simp only [nfMatches, List.map_cons, List.map_nil]
  rw [h]

theorem nf_single_of_ne {a : List Char} (h : normalize_whitespace ⟨a⟩ ≠ "") :
    nfMatches [a] = [normalize_whitespace ⟨a⟩] := by
  simp [nfMatches, List.filter_cons, h]

theorem sentScan_noTerm_entry {cs : List Char} (h0 : cs ≠ [])
    (h : ∀ c ∈ cs, isTerm c = false) : sentScan cs none = [cs] := by
  obtain ⟨c, rest, rfl⟩ := List.exists_cons_of_ne_nil h0
  have hc : isTerm c = false := h c (List.mem_cons_self c rest)
  have hrest : ∀ d ∈ rest, isTerm d = false := fun d hd =>
    h d (List.mem_cons_of_mem c hd)
  simp only [sentScan, hc, Bool.false_eq_true, if_false]
  rw [sentScan_noTerm hrest [c]]
  simp

theorem sentScan_ws_then_frag {G : List Char} {c0 : Char} {G2 : List Char}
    (hGeq : G = c0 :: G2) (hc0 : isPySpace c0 = false)
    (hG : ∀ c ∈ G, isTerm c = false) :
    ∀ W : List Char, (∀ c ∈ W, isPySpace c = true) →
      ∀ acc, sentScan (W ++ G) (some (acc, true)) = [acc.reverse ++ W, G] := by
  intro W
  induction W with
  | nil =>
    intro _ acc
    subst hGeq
    have hc0t : isTerm c0 = false := hG c0 (List.mem_cons_self c0 G2)
    have hG2 : ∀ c ∈ G2, isTerm c = false := fun c hc =>
      hG c (List.mem_cons_of_mem c0 hc)
    simp only [List.nil_append, sentScan, hc0, Bool.false_eq_true, if_false, hc0t]
    rw [sentScan_noTerm hG2 [c0]]
    simp
  | cons w W2 ih =>
    intro hW acc
    have hw : isPySpace w = true := hW w (List.mem_cons_self w W2)
    simp only [List.cons_append, sentScan, hw, if_pos, if_true, List.append_eq]
    rw [ih (fun c hc => hW c (List.mem_cons_of_mem w hc)) (w :: acc)]
    simp [List.append_assoc]

theorem nf_scan_start {G : List Char} {c0 : Char} {G2 : List Char}
    (hGeq : G = c0 :: G2) (hc0 : isPySpace c0 = false)
    (hG : ∀ c ∈ G, isTerm c = false) (W : List Char)
    (hW : ∀ c ∈ W, isPySpace c = true) :
    nfMatches (sentScan (W ++ G) none) = [normalize_whitespace ⟨G⟩] := by
  have hGne : normalize_whitespace ⟨G⟩ ≠ "" := by
    intro h
    exact normChar_ne_nil_of_mem (hGeq ▸ List.mem_cons_self c0 G2) hc0
      (mk_eq_empty_iff.mp h)
  cases W with
  | nil =>
    rw [List.nil_append, sentScan_noTerm_entry (by simp [hGeq]) hG]
    exact nf_single_of_ne hGne
  | cons w W2 =>
    have hw : isPySpace w = true := hW w (List.mem_cons_self w W2)
    have hwt : isTerm w = false := space_not_term hw
    have hall : ∀ c ∈ W2 ++ G, isTerm c = false := by
      intro c hc
      rcases List.mem_append.mp hc with h | h
      · exact space_not_term (hW c (List.mem_cons_of_mem w h))
      · exact hG c h
    simp only [List.cons_append, sentScan, hwt, Bool.false_eq_true, if_false,
      List.append_eq]
    rw [sentScan_noTerm hall [w]]
    have heq : normalize_whitespace ⟨[w].reverse ++ (W2 ++ G)⟩ =
        normalize_whitespace ⟨G⟩ := by
      simp only [List.reverse_cons, List.reverse_nil, List.nil_append,
        List.singleton_append]
      have : w :: (W2 ++ G) = (w :: W2) ++ G := rfl
      rw [this]
      simp only [normalize_whitespace, data_mk]
      exact congrArg String.mk (normChar_prepend_allws hW G)
    rw [nf_single_congr heq]
    exact nf_single_of_ne hGne

theorem nf_scan_frag {t : Char} (ht : isTerm t = true) {W G : List Char}
    (hW : ∀ c ∈ W, isPySpace c = true) {c0 : Char} {G2 : List Char}
    (hGeq : G = c0 :: G2) (hc0 : isPySpace c0 = false)
    (hG : ∀ c ∈ G, isTerm c = false) :
    ∀ (cs : List Char) (st : Option (List Char × Bool)),
      nfMatches (sentScan (cs ++ t :: (W ++ G)) st) =
        nfMatches (sentScan (cs ++ [t]) st) ++ [normalize_whitespace ⟨G⟩] := by
  have hGne : normalize_whitespace ⟨G⟩ ≠ "" := by
    intro h
    exact normChar_ne_nil_of_mem (hGeq ▸ List.mem_cons_self c0 G2) hc0
      (mk_eq_empty_iff.mp h)
  have hnfG : nfMatches [G] = [normalize_whitespace ⟨G⟩] := nf_single_of_ne hGne
  intro cs
  induction cs with
  | nil =>
    intro st
    rcases st with _ | ⟨acc, b⟩
    · simp only [List.nil_append, sentScan, ht, if_pos, if_true]
      rw [nf_scan_start hGeq hc0 hG W hW]
      rfl
    · cases b with
      | false =>
        simp only [List.nil_append, sentScan, ht, if_pos, if_true]
        rw [sentScan_ws_then_frag hGeq hc0 hG W hW (t :: acc)]
        have hx : ((t :: acc).reverse ++ W) :: [G] =
            [(t :: acc).reverse ++ W] ++ [G] := rfl
        rw [hx, nf_append, hnfG]
        have hm : normalize_whitespace ⟨(t :: acc).reverse ++ W⟩ =
            normalize_whitespace ⟨(t :: acc).reverse⟩ := by
          simp only [normalize_whitespace, data_mk]
          exact congrArg String.mk (normChar_append_allws hW (t :: acc).reverse)
        rw [nf_single_congr hm]
      | true =>
        have htns : isPySpace t = false := term_not_space ht
        simp only [List.nil_append, sentScan, htns, Bool.false_eq_true, if_false,
          ht, if_pos, if_true]
        refine nf_cons_frag ?_ acc.reverse
        rw [nf_scan_start hGeq hc0 hG W hW]
        rfl
  | cons c cs2 ih =>
    intro st
    rcases st with _ | ⟨acc, b⟩
    · by_cases hc : isTerm c
      · simp only [List.cons_append, sentScan, hc, if_pos, if_true]
        exact ih none
      · simp only [List.cons_append, sentScan, hc, Bool.false_eq_true, if_false]
        exact ih (some ([c], false))
    · cases b with
      | false =>
        by_cases hc : isTerm c
        · simp only [List.cons_append, sentScan, hc, if_pos, if_true]
          exact ih (some (c :: acc, true))
        · simp only [List.cons_append, sentScan, hc, Bool.false_eq_true, if_false]
          exact ih (some (c :: acc, false))
      | true =>
        by_cases hcw : isPySpace c
        · simp only [List.cons_append, sentScan, hcw, if_pos, if_true]
          exact ih (some (c :: acc, true))
        · simp only [List.cons_append, sentScan, hcw, Bool.false_eq_true, if_false]
          by_cases hc : isTerm c
          · simp only [hc, if_pos, if_true]
            exact nf_cons_frag (ih none) acc.reverse
          · simp only [hc, Bool.false_eq_true, if_false]
            exact nf_cons_frag (ih (some ([c], false))) acc.reverse

theorem split_eq_nf (s : String) :
    split_sentences s =
      if pyStrip s.data = [] then []
      else nfMatches (sentFindall (pyStrip s.data)) := rfl

theorem split_sentences_final_fragment (p f : String) (q W : List Char)
    (t c0 : Char) (frest : List Char)
    (hp : p.data = q ++ t :: W) (ht : isTerm t = true)
    (hW : ∀ c ∈ W, isPySpace c = true)
    (hf : ∀ c ∈ f.data, isTerm c = false)
    (hfd : f.data = c0 :: frest) (hc0 : isPySpace c0 = false) :
    split_sentences (p ++ f) = split_sentences p ++ [normalize_whitespace f] := by
  have htns : isPySpace t = false := term_not_space ht
  obtain ⟨q2, hq2⟩ := lstrip_exists_prefix htns W q
  have hGne0 : rstrip f.data ≠ [] := by
    rw [hfd]
    exact rstrip_cons_ne_nil hc0 frest
  obtain ⟨G2, hG2⟩ : ∃ G2, rstrip f.data = c0 :: G2 := by
    rw [hfd]
    rcases rstrip_head c0 frest with h | ⟨t2, h2⟩
    · rw [hfd] at hGne0
      exact absurd h hGne0
    · exact ⟨t2, h2⟩
  have hGterm : ∀ c ∈ rstrip f.data, isTerm c = false := fun c hc =>
    hf c (mem_rstrip hc)
  have hlp : lstrip p.data = q2 ++ t :: W := by
    rw [hp]
    exact hq2
  have hlpne : lstrip p.data ≠ [] := by
    rw [hlp]
    simp
  have hrt : rstrip ([t] : List Char) = [t] := by
    rw [rstrip_cons]
    simp [rstrip, htns]
  have hpar1 : pyStrip (p.data ++ f.data) = q2 ++ t :: (W ++ rstrip f.data) := by
    unfold pyStrip
    rw [lstrip_append_of_ne_nil hlpne f.data, hlp,
      rstrip_append_of_ne_nil hGne0 (q2 ++ t :: W)]
    simp
  have hparp : pyStrip p.data = q2 ++ [t] := by
    unfold pyStrip
    rw [hlp, show q2 ++ t :: W = (q2 ++ [t]) ++ W by simp,
      rstrip_append_allws hW, rstrip_append_of_ne_nil (by rw [hrt]; simp) q2, hrt]
  have hdPF : (p ++ f).data = p.data ++ f.data := by simp [String.data_append]
  have h1 : split_sentences (p ++ f) =
      nfMatches (sentScan (q2 ++ t :: (W ++ rstrip f.data)) none) := by
    rw [split_eq_nf, hdPF, hpar1, if_neg (by simp)]
    rfl
  have h2 : split_sentences p = nfMatches (sentScan (q2 ++ [t]) none) := by
    rw [split_eq_nf, hparp, if_neg (by simp)]
    rfl
  rw [h1, h2, nf_scan_frag ht hW hG2 hc0 hGterm q2 none, normalize_rstrip_data f]

/-! ### State-field preservation lemmas -/

theorem recordAuthor_book_title (st : ParseState) (cand : List Char) :
    (recordAuthor st cand).book_title = st.book_title := by
  unfold recordAuthor
  split
  · split <;> rfl
  · rfl

theorem recordAuthor_chapters (st : ParseState) (cand : List Char) :
    (recordAuthor st cand).chapters = st.chapters := by
  unfold recordAuthor
  split
  · split <;> rfl
  · rfl

theorem recordAuthor_current (st : ParseState) (cand : List Char) :
    (recordAuthor st cand).current = st.current := by
  unfold recordAuthor
  split
  · split <;> rfl
  · rfl

theorem recordAuthor_paragraph_lines (st : ParseState) (cand : List Char) :
    (recordAuthor st cand).paragraph_lines = st.paragraph_lines := by
  unfold recordAuthor
  split
  · split <;> rfl
  · rfl

theorem flush_book_title (st : ParseState) :
    (flush_paragraph st).book_title = st.book_title := by
  unfold flush_paragraph
  split
  · rfl
  · dsimp only
    split
    · rfl
    · split <;> rfl

theorem flush_authors (st : ParseState) :
    (flush_paragraph st).authors = st.authors := by
  unfold flush_paragraph
  split
  · rfl
  · dsimp only
    split
    · rfl
    · split <;> rfl

theorem flush_current (st : ParseState) :
    (flush_paragraph st).current = st.current := by
  unfold flush_paragraph
  split
  · rfl
  · dsimp only
    split
    · rfl
    · split <;> rfl

theorem flush_paragraph_lines (st : ParseState) :
    (flush_paragraph st).paragraph_lines = [] := by
  unfold flush_paragraph
  split
  · rfl
  · dsimp only
    split
    · rfl
    · split <;> rfl

theorem ensure_of_some {st : ParseState} {i : Nat} (h : st.current = some i)
    (fb : String) : ensure_chapter st fb = st := by
  unfold ensure_chapter
  rw [h]

theorem ensure_authors (st : ParseState) (fb : String) :
    (ensure_chapter st fb).authors = st.authors := by
  unfold ensure_chapter
  split <;> rfl

theorem ensure_book_title (st : ParseState) (fb : String) :
    (ensure_chapter st fb).book_title = st.book_title := by
  unfold ensure_chapter
  split <;> rfl

theorem ensure_paragraph_lines (st : ParseState) (fb : String) :
    (ensure_chapter st fb).paragraph_lines = st.paragraph_lines := by
  unfold ensure_chapter
  split <;> rfl

/-! ### The numbering invariant -/

theorem range_snoc (s n : Nat) :
    List.range' s (n + 1) = List.range' s n ++ [s + n] := by
  induction n generalizing s with
  | zero => simp [List.range']
  | succ n ih =>
    rw [List.range']
    conv_lhs => rw [ih (s + 1)]
    simp [List.range', Nat.add_assoc, Nat.add_comm 1 n]

theorem mkSentences_map (raw : List String) :
    ∀ n, (mkSentences raw n).map Sentence.sentence_number = List.range' n raw.length := by
  induction raw with
  | nil => intro n; rfl
  | cons s rest ih =>
    intro n
    simp only [mkSentences, List.map_cons, List.length_cons, List.range']
    rw [ih (n + 1)]

theorem mkSentences_length (raw : List String) :
    ∀ n, (mkSentences raw n).length = raw.length := by
  induction raw with
  | nil => intro n; rfl
  | cons s rest ih =>
    intro n
    simp only [mkSentences, List.length_cons]
    rw [ih (n + 1)]

theorem modifyAt_map_number {f : Chapter → Chapter}
    (hf : ∀ ch, (f ch).chapter_number = ch.chapter_number) :
    ∀ (i : Nat) (l : List Chapter),
      (modifyAt f i l).map Chapter.chapter_number = l.map Chapter.chapter_number := by
  intro i l
  induction l generalizing i with
  | nil => cases i <;> rfl
  | cons c rest ih =>
    cases i with
    | zero => simp [modifyAt, hf c]
    | succ j => simp [modifyAt, ih j]

theorem modifyAt_length (f : Chapter → Chapter) :
    ∀ (i : Nat) (l : List Chapter), (modifyAt f i l).length = l.length := by
  intro i l
  induction l generalizing i with
  | nil => cases i <;> rfl
  | cons c rest ih =>
    cases i with
    | zero => simp [modifyAt]
    | succ j => simp [modifyAt, ih j]

theorem modifyAt_forall {f : Chapter → Chapter} {P : Chapter → Prop}
    (hf : ∀ ch, P ch → P (f ch)) :
    ∀ (i : Nat) (l : List Chapter), (∀ ch ∈ l, P ch) →
      ∀ ch ∈ modifyAt f i l, P ch := by
  intro i l
  induction l generalizing i with
  | nil => intro _ ch hch; cases i <;> exact absurd hch (List.not_mem_nil ch)
  | cons c rest ih =>
    intro hl ch hch
    cases i with
    | zero =>
      rcases List.mem_cons.mp hch with h | h
      · exact h ▸ hf c (hl c (List.mem_cons_self c rest))
      · exact hl ch (List.mem_cons_of_mem c h)
    | succ j =>
      rcases List.mem_cons.mp hch with h | h
      · exact h ▸ hl c (List.mem_cons_self c rest)
      · exact ih j (fun x hx => hl x (List.mem_cons_of_mem c hx)) ch h

theorem modifyAt_get? (f : Chapter → Chapter) :
    ∀ (i : Nat) (l : List Chapter), (modifyAt f i l).get? i = (l.get? i).map f := by
  intro i l
  induction l generalizing i with
  | nil => cases i <;> rfl
  | cons c rest ih =>
    cases i with
    | zero => rfl
    | succ j => simpa [modifyAt] using ih j

theorem modifyAt_paraAppend_map (sents : List Sentence) (i : Nat) (l : List Chapter) :
    (modifyAt
        (fun ch =>
          { ch with
              paragraphs := ch.paragraphs ++ [⟨ch.paragraphs.length + 1, sents⟩] })
        i l).map Chapter.chapter_number = l.map Chapter.chapter_number := by
  apply modifyAt_map_number
  intro ch
  rfl

theorem chaptersOK_append {chs : List Chapter} (h : chaptersOK chs) (t : String) :
    chaptersOK (chs ++ [⟨chs.length + 1, t, []⟩]) := by
  obtain ⟨hmap, hall⟩ := h
  constructor
  · simp only [List.map_append, List.length_append, List.map_cons, List.map_nil,
      List.length_cons, List.length_nil]
    rw [hmap, Nat.zero_add, range_snoc 1 chs.length, Nat.add_comm 1 chs.length]
  · intro ch hch
    rcases List.mem_append.mp hch with h1 | h1
    · exact hall ch h1
    · rw [List.mem_singleton.mp h1]
      exact ⟨rfl, fun p hp => absurd hp (List.not_mem_nil p)⟩

theorem chapOK_appendPara {sents : List Sentence}
    (hs : sents.map Sentence.sentence_number = List.range' 1 sents.length)
    (ch : Chapter) (h : chapOK ch) :
    chapOK { ch with
      paragraphs := ch.paragraphs ++ [⟨ch.paragraphs.length + 1, sents⟩] } := by
  obtain ⟨hmap, hall⟩ := h
  constructor
  · simp only [List.map_append, List.length_append, List.map_cons, List.map_nil,
      List.length_cons, List.length_nil]
    rw [hmap, Nat.zero_add, range_snoc 1 ch.paragraphs.length,
      Nat.add_comm 1 ch.paragraphs.length]
  · intro p hp
    rcases List.mem_append.mp hp with h1 | h1
    · exact hall p h1
    · rw [List.mem_singleton.mp h1]
      exact hs

theorem flush_chaptersOK {st : ParseState} (h : chaptersOK st.chapters) :
    chaptersOK (flush_paragraph st).chapters := by
  unfold flush_paragraph
  split
  · exact h
  · dsimp only
    split
    · exact h
    · split
      · exact h
      · refine ⟨?_, ?_⟩
        · show (modifyAt _ _ st.chapters).map Chapter.chapter_number =
            List.range' 1 (modifyAt _ _ st.chapters).length
          rw [modifyAt_paraAppend_map, modifyAt_length]
          exact h.1
        · show ∀ ch ∈ modifyAt _ _ st.chapters, chapOK ch
          refine modifyAt_forall ?_ _ _ h.2
          intro ch hch
          refine chapOK_appendPara ?_ ch hch
          rw [mkSentences_map, mkSentences_length]


theorem ensure_chaptersOK {st : ParseState} (h : chaptersOK st.chapters)
    (fb : String) : chaptersOK (ensure_chapter st fb).chapters := by
  unfold ensure_chapter
  split
  · exact h
  · exact chaptersOK_append h fb

theorem recordAuthor_chaptersOK {st : ParseState} (h : chaptersOK st.chapters)
    (cand : List Char) : chaptersOK (recordAuthor st cand).chapters := by
  rw [recordAuthor_chapters]
  exact h

theorem processLine_chaptersOK {st : ParseState} (h : chaptersOK st.chapters)
    (line : String) : chaptersOK (processLine st line).chapters := by
  simp only [processLine]
  split
  · split
    · exact flush_chaptersOK h
    · rw [recordAuthor_chapters]
      exact chaptersOK_append (flush_chaptersOK h) _
  · split
    · exact flush_chaptersOK h
    · split
      · exact flush_chaptersOK
          (flush_chaptersOK (ensure_chaptersOK (recordAuthor_chaptersOK h _) _))
      · exact ensure_chaptersOK (recordAuthor_chaptersOK h _) _

/-! ### Author recording: first match wins -/

theorem recordAuthor_of_some {st : ParseState} {a : List String}
    (h : st.authors = some a) (cand : List Char) :
    (recordAuthor st cand).authors = some a := by
  unfold recordAuthor
  split
  · split
    · rename_i hn
      rw [h] at hn
      exact absurd hn (by simp)
    · exact h
  · exact h

theorem processLine_authors_some {st : ParseState} {a : List String}
    (h : st.authors = some a) (line : String) :
    (processLine st line).authors = some a := by
  simp only [processLine]
  split
  · split
    · exact (flush_authors st).trans h
    · exact recordAuthor_of_some ((flush_authors st).trans h) _
  · split
    · exact (flush_authors st).trans h
    · split
      · exact (flush_authors _).trans ((flush_authors _).trans
          ((ensure_authors _ _).trans (recordAuthor_of_some h _)))
      · exact (ensure_authors _ _).trans (recordAuthor_of_some h _)

/-- The author slot is empty or holds exactly one captured name. -/
def authorsShape (o : Option (List String)) : Prop :=
  o = none ∨ ∃ a, o = some [a]

theorem recordAuthor_shape {st : ParseState} (h : authorsShape st.authors)
    (cand : List Char) : authorsShape (recordAuthor st cand).authors := by
  unfold recordAuthor
  split
  · split
    · exact Or.inr ⟨_, rfl⟩
    · exact h
  · exact h

theorem processLine_shape {st : ParseState} (h : authorsShape st.authors)
    (line : String) : authorsShape (processLine st line).authors := by
  simp only [processLine]
  split
  · split
    · rw [flush_authors]; exact h
    · exact recordAuthor_shape (by rw [flush_authors]; exact h) _
  · split
    · rw [flush_authors]; exact h
    · split
      · rw [flush_authors, flush_authors, ensure_authors]
        exact recordAuthor_shape h _
      · rw [ensure_authors]
        exact recordAuthor_shape h _

theorem foldl_shape (lines : List String) :
    ∀ st : ParseState, authorsShape st.authors →
      authorsShape (lines.foldl processLine st).authors := by
  induction lines with
  | nil => intro st h; exact h
  | cons l rest ih =>
    intro st h
    exact ih (processLine st l) (processLine_shape h l)

theorem parse_metadata_shape (md : String) :
    authorsShape (parse_markdown md).metadata := by
  unfold parse_markdown
  dsimp only
  rw [flush_authors]
  exact foldl_shape (pySplitlines md) _ (Or.inl rfl)

/-! ### List-item lines -/

theorem pl_nil_eta {st : ParseState} (h : st.paragraph_lines = []) :
    { st with paragraph_lines := ([] : List String) } = st := by
  rw [← h]

theorem flush_of_pl_nil {st : ParseState} (h : st.paragraph_lines = []) :
    flush_paragraph st = st := by
  unfold flush_paragraph
  split
  · exact pl_nil_eta h
  · dsimp only
    rw [h]
    simp only [List.map_nil, List.filter_nil, joinSpace, if_pos]
    exact pl_nil_eta h

theorem flush_one_nonempty {st : ParseState} {i : Nat} (h : st.current = some i)
    {sents : List Sentence}
    (htext :
      joinSpace ((st.paragraph_lines.map pyStripStr).filter fun l => l != "") ≠ "")
    (hs :
      mkSentences
        (split_sentences
          (joinSpace ((st.paragraph_lines.map pyStripStr).filter fun l => l != "")))
        1 = sents)
    (hsne : sents ≠ []) :
    flush_paragraph st =
      { st with
          paragraph_lines := [],
          chapters :=
            modifyAt
              (fun ch =>
                { ch with
                    paragraphs := ch.paragraphs ++ [⟨ch.paragraphs.length + 1, sents⟩] })
              i st.chapters } := by
  unfold flush_paragraph
  rw [h]
  dsimp only
  rw [if_neg htext, hs, if_neg hsne]

theorem processLine_item_eq (st : ParseState) (l : String) :
    processLine st l =
      (let line := rstrip l.data
       let stripped := pyStrip line
       if headingMatch line = none ∧ stripped ≠ [] ∧ byMatch stripped = none ∧
          startsWithDash stripped = true then
        flush_paragraph
          { flush_paragraph (ensure_chapter st (pyOr st.book_title "Section 1")) with
              paragraph_lines := [(⟨stripped⟩ : String)] }
       else processLine st l) := by
  dsimp only
  split
  · rename_i hcond
    obtain ⟨h1, h2, h3, h4⟩ := hcond
    simp only [processLine, h1]
    rw [if_neg h2]
    unfold recordAuthor
    rw [h3, h4]
    simp only [if_pos, if_true]
  · rfl

/-! ### The substitution passes of `extract_notes` on marker-free text -/

theorem noHat_cons_cons (a b : Char) (rest : List Char) :
    noHat (a :: b :: rest) = if a = '[' ∧ b = '^' then false else noHat (b :: rest) :=
  rfl

theorem noHat_tail {c : Char} {rest : List Char} (h : noHat (c :: rest) = true) :
    noHat rest = true := by
  cases rest with
  | nil => rfl
  | cons d t =>
    rw [noHat_cons_cons] at h
    by_cases hc : c = '[' ∧ d = '^'
    · rw [if_pos hc] at h; exact absurd h (by simp)
    · rwa [if_neg hc] at h

theorem noHat_not_head {c d : Char} {t : List Char}
    (h : noHat (c :: d :: t) = true) : ¬(c = '[' ∧ d = '^') := by
  intro hc
  rw [noHat_cons_cons, if_pos hc] at h
  exact absurd h (by simp)

theorem noHat_of_not_mem {cs : List Char} (h : '[' ∉ cs) : noHat cs = true := by
  induction cs with
  | nil => rfl
  | cons c rest ih =>
    have hc : c ≠ '[' := fun e => h (e ▸ List.mem_cons_self c rest)
    have hrest : '[' ∉ rest := fun m => h (List.mem_cons_of_mem c m)
    cases rest with
    | nil => rfl
    | cons d t =>
      rw [noHat_cons_cons, if_neg fun hcd => hc hcd.1]
      exact ih hrest

theorem noHat_append {xs ys : List Char} (h : '[' ∉ xs) :
    noHat (xs ++ ys) = noHat ys := by
  induction xs with
  | nil => rfl
  | cons c rest ih =>
    have hc : c ≠ '[' := fun e => h (e ▸ List.mem_cons_self c rest)
    have hrest : '[' ∉ rest := fun m => h (List.mem_cons_of_mem c m)
    rw [List.cons_append]
    cases hrx : rest ++ ys with
    | nil =>
      rcases List.append_eq_nil.mp hrx with ⟨h1, h2⟩
      subst h1; subst h2
      rfl
    | cons d t =>
      rw [noHat_cons_cons, if_neg fun hcd => hc hcd.1, ← hrx]
      exact ih hrest

theorem head_ne_hat {rest : List Char} (h : noHat ('[' :: rest) = true) :
    rest.head? ≠ some '^' := by
  cases rest with
  | nil => simp
  | cons d t =>
    intro he
    simp only [List.head?_cons, Option.some.injEq] at he
    exact noHat_not_head h ⟨rfl, he⟩

theorem refGo_noHat (cs : List Char) :
    (noHat cs = true → refGo cs .outside = (cs, [])) ∧
      (noHat cs = true → cs.head? ≠ some '^' →
        refGo cs .sawB = ('[' :: cs, [])) := by
  induction cs with
  | nil => exact ⟨fun _ => rfl, fun _ _ => rfl⟩
  | cons c rest ih =>
    constructor
    · intro h
      by_cases hc : c = '['
      · subst hc
        have h2 := ih.2 (noHat_tail h) (head_ne_hat h)
        simp [refGo, h2]
      · have h2 := ih.1 (noHat_tail h)
        simp [refGo, hc, h2]
    · intro h hhd
      have hc2 : c ≠ '^' := fun e => hhd (by rw [e]; rfl)
      by_cases hc : c = '['
      · subst hc
        have h2 := ih.2 (noHat_tail h) (head_ne_hat h)
        simp [refGo, hc2, h2]
      · have h2 := ih.1 (noHat_tail h)
        simp [refGo, hc2, hc, h2]

theorem inl_skip {pre : List Char} (h : '[' ∉ pre) (x : List Char) :
    inlGo (pre ++ x) .outside =
      (pre ++ (inlGo x .outside).1, (inlGo x .outside).2) := by
  induction pre with
  | nil => simp
  | cons c rest ih =>
    have hc : c ≠ '[' := fun e => h (e ▸ List.mem_cons_self c rest)
    have hrest : '[' ∉ rest := fun m => h (List.mem_cons_of_mem c m)
    rw [List.cons_append]
    simp [inlGo, hc, ih hrest]

theorem inl_nomatch {cs : List Char} (h : '[' ∉ cs) :
    inlGo cs .outside = (cs, []) := by
  have h2 := inl_skip h []
  rw [show inlGo ([] : List Char) .outside = (([] : List Char), ([] : List String))
    from rfl] at h2
  simpa using h2

theorem inl_body {post : List Char} :
    ∀ (ident seen acc : List Char), (']' ∉ ident) →
      inlGo (ident ++ ']' :: post) (.body seen acc) =
        ((inlGo post .outside).1,
          (⟨pyStrip (seen.reverse ++ (acc.reverse ++ ident))⟩ : String) ::
            (inlGo post .outside).2) := by
  intro ident
  induction ident with
  | nil =>
    intro seen acc _
    simp [inlGo]
  | cons d dt ih =>
    intro seen acc hid
    have hd : d ≠ ']' := fun e => hid (e ▸ List.mem_cons_self d dt)
    have hdt : ']' ∉ dt := fun m => hid (List.mem_cons_of_mem d m)
    rw [List.cons_append]
    have step : inlGo (d :: (dt ++ ']' :: post)) (.body seen acc) =
        inlGo (dt ++ ']' :: post) (.body seen (d :: acc)) := by
      simp [inlGo, hd]
    rw [step, ih seen (d :: acc) hdt]
    simp [List.reverse_cons, List.append_assoc]

theorem inl_marker {ident post : List Char} (hid0 : ident ≠ [])
    (hid1 : ']' ∉ ident) :
    inlGo
      ('[' :: 'f' :: 'o' :: 'o' :: 't' :: 'n' :: 'o' :: 't' :: 'e' :: ':' ::
        (ident ++ ']' :: post)) .outside =
      ((inlGo post .outside).1,
        (⟨pyStrip ('f' :: 'o' :: 'o' :: 't' :: 'n' :: 'o' :: 't' :: 'e' :: ':' ::
          ident)⟩ : String) :: (inlGo post .outside).2) := by
  obtain ⟨c, rest, rfl⟩ := List.exists_cons_of_ne_nil hid0
  have hc : c ≠ ']' := fun e => hid1 (e ▸ List.mem_cons_self c rest)
  have hrest : ']' ∉ rest := fun m => hid1 (List.mem_cons_of_mem c m)
  have step1 : inlGo
      ('[' :: 'f' :: 'o' :: 'o' :: 't' :: 'n' :: 'o' :: 't' :: 'e' :: ':' ::
        ((c :: rest) ++ ']' :: post)) .outside =
      inlGo ((c :: rest) ++ ']' :: post)
        (.lit (':' :: 'e' :: 't' :: 'o' :: 'n' :: 't' :: 'o' :: 'o' :: 'f' :: []) []) :=
    rfl
  rw [step1, List.cons_append]
  have step2 : inlGo (c :: (rest ++ ']' :: post))
      (.lit (':' :: 'e' :: 't' :: 'o' :: 'n' :: 't' :: 'o' :: 'o' :: 'f' :: []) []) =
      inlGo (rest ++ ']' :: post)
        (.body (':' :: 'e' :: 't' :: 'o' :: 'n' :: 't' :: 'o' :: 'o' :: 'f' :: []) [c]) := by
    simp [inlGo, hc]
  rw [step2, inl_body rest _ [c] hrest]
  simp

theorem extract_notes_marker (pre ident post : String)
    (hpre : '[' ∉ pre.data) (hpost : '[' ∉ post.data) (hid0 : ident.data ≠ [])
    (hid1 : ']' ∉ ident.data) (hid2 : '[' ∉ ident.data) :
    extract_notes (pre ++ "[footnote:" ++ ident ++ "]" ++ post) =
      (normalize_whitespace (pre ++ post), [pyStripStr ("footnote:" ++ ident)]) := by
  have hdata : (pre ++ "[footnote:" ++ ident ++ "]" ++ post).data =
      pre.data ++ ('[' :: 'f' :: 'o' :: 'o' :: 't' :: 'n' :: 'o' :: 't' :: 'e' :: ':' ::
        (ident.data ++ ']' :: post.data)) := by
    simp [String.data_append]
  have hmid : '[' ∉
      ('f' :: 'o' :: 'o' :: 't' :: 'n' :: 'o' :: 't' :: 'e' :: ':' :: ident.data) := by
    intro hm
    simp only [List.mem_cons] at hm
    rcases hm with h | h | h | h | h | h | h | h | h | h
    all_goals first
      | exact absurd h (by decide)
      | exact hid2 h
  have hclose : '[' ∉ (']' :: post.data) := by
    intro hm
    simp only [List.mem_cons] at hm
    rcases hm with h | h
    · exact absurd h (by decide)
    · exact hpost h
  have hsplitmid :
      ('f' :: 'o' :: 'o' :: 't' :: 'n' :: 'o' :: 't' :: 'e' :: ':' ::
        (ident.data ++ ']' :: post.data)) =
      ('f' :: 'o' :: 'o' :: 't' :: 'n' :: 'o' :: 't' :: 'e' :: ':' :: ident.data) ++
        (']' :: post.data) := by
    simp
  have hnh : noHat (pre ++ "[footnote:" ++ ident ++ "]" ++ post).data = true := by
    rw [hdata, noHat_append hpre, noHat_cons_cons, if_neg (by decide), hsplitmid,
      noHat_append hmid]
    exact noHat_of_not_mem hclose
  have hpass1 : refGo (pre ++ "[footnote:" ++ ident ++ "]" ++ post).data .outside =
      ((pre ++ "[footnote:" ++ ident ++ "]" ++ post).data, []) :=
    (refGo_noHat _).1 hnh
  have hpass2 : inlGo (pre ++ "[footnote:" ++ ident ++ "]" ++ post).data .outside =
      (pre.data ++ post.data,
        [(⟨pyStrip ('f' :: 'o' :: 'o' :: 't' :: 'n' :: 'o' :: 't' :: 'e' :: ':' ::
          ident.data)⟩ : String)]) := by
    rw [hdata, inl_skip hpre, inl_marker hid0 hid1, inl_nomatch hpost]
  unfold extract_notes
  rw [hpass1]
  dsimp only
  rw [hpass2]
  rfl

theorem processLine_dash_generic {st : ParseState} {i : Nat}
    (hcur : st.current = some i) (l : String)
    (hhm : headingMatch (rstrip l.data) = none)
    (hstr : pyStrip (rstrip l.data) ≠ [])
    (hby : byMatch (pyStrip (rstrip l.data)) = none)
    (hdash : startsWithDash (pyStrip (rstrip l.data)) = true) :
    processLine st l =
      flush_paragraph
        { flush_paragraph st with
            paragraph_lines := [(⟨pyStrip (rstrip l.data)⟩ : String)] } := by
  simp only [processLine, hhm]
  rw [if_neg hstr]
  unfold recordAuthor
  rw [hby, hdash]
  simp only [if_pos, if_true]
  rw [ensure_of_some hcur]

theorem listItem_two (st : ParseState) (i : Nat) (ch : Chapter)
    (hcur : st.current = some i)
    (hch : (flush_paragraph st).chapters.get? i = some ch) :
    (processLine (processLine st "- item one") "- item two").chapters.get? i =
      some { ch with paragraphs := ch.paragraphs ++
          [⟨ch.paragraphs.length + 1, [⟨1, "- item one", []⟩]⟩,
           ⟨ch.paragraphs.length + 2, [⟨1, "- item two", []⟩]⟩] } ∧
    (processLine (processLine st "- item one") "- item two").current = some i := by
  have htext1 : joinSpace
      (((["- item one"] : List String).map pyStripStr).filter fun l => l != "") ≠ "" := by
    decide
  have hs1 : mkSentences (split_sentences (joinSpace
      (((["- item one"] : List String).map pyStripStr).filter fun l => l != ""))) 1 =
      [⟨1, "- item one", []⟩] := rfl
  have hsne1 : ([⟨1, "- item one", []⟩] : List Sentence) ≠ [] := by decide
  have htext2 : joinSpace
      (((["- item two"] : List String).map pyStripStr).filter fun l => l != "") ≠ "" := by
    decide
  have hs2 : mkSentences (split_sentences (joinSpace
      (((["- item two"] : List String).map pyStripStr).filter fun l => l != ""))) 1 =
      [⟨1, "- item two", []⟩] := rfl
  have hsne2 : ([⟨1, "- item two", []⟩] : List Sentence) ≠ [] := by decide
  have e0 : processLine st "- item one" =
      flush_paragraph
        { flush_paragraph st with paragraph_lines := ["- item one"] } :=
    processLine_dash_generic hcur "- item one" rfl (by decide) rfl rfl
  have hc1 : ({ flush_paragraph st with paragraph_lines := ["- item one"] } :
      ParseState).current = some i := by
    show (flush_paragraph st).current = some i
    rw [flush_current]
    exact hcur
  have e1 : flush_paragraph
      { flush_paragraph st with paragraph_lines := ["- item one"] } =
      { flush_paragraph st with
          paragraph_lines := [],
          chapters :=
            modifyAt
              (fun c2 =>
                { c2 with paragraphs := c2.paragraphs ++
                    [⟨c2.paragraphs.length + 1, [⟨1, "- item one", []⟩]⟩] })
              i (flush_paragraph st).chapters } :=
    flush_one_nonempty hc1 htext1 hs1 hsne1
  have hcA : ({ flush_paragraph st with
      paragraph_lines := ([] : List String),
      chapters :=
        modifyAt
          (fun c2 =>
            { c2 with paragraphs := c2.paragraphs ++
                [⟨c2.paragraphs.length + 1, [⟨1, "- item one", []⟩]⟩] })
          i (flush_paragraph st).chapters } : ParseState).current = some i := by
    show (flush_paragraph st).current = some i
    rw [flush_current]
    exact hcur
  have hA : flush_paragraph
      { flush_paragraph st with
          paragraph_lines := ([] : List String),
          chapters :=
            modifyAt
              (fun c2 =>
                { c2 with paragraphs := c2.paragraphs ++
                    [⟨c2.paragraphs.length + 1, [⟨1, "- item one", []⟩]⟩] })
              i (flush_paragraph st).chapters } =
      { flush_paragraph st with
          paragraph_lines := ([] : List String),
          chapters :=
            modifyAt
              (fun c2 =>
                { c2 with paragraphs := c2.paragraphs ++
                    [⟨c2.paragraphs.length + 1, [⟨1, "- item one", []⟩]⟩] })
              i (flush_paragraph st).chapters } :=
    flush_of_pl_nil rfl
  have e2 : processLine (processLine st "- item one") "- item two" =
      flush_paragraph
        { flush_paragraph st with
            paragraph_lines := ["- item two"],
            chapters :=
              modifyAt
                (fun c2 =>
                  { c2 with paragraphs := c2.paragraphs ++
                      [⟨c2.paragraphs.length + 1, [⟨1, "- item one", []⟩]⟩] })
                i (flush_paragraph st).chapters } := by
    rw [e0, e1, processLine_dash_generic hcA "- item two" rfl (by decide) rfl rfl]
    simp only [hA]
    rfl
  have hc2 : ({ flush_paragraph st with
      paragraph_lines := ["- item two"],
      chapters :=
        modifyAt
          (fun c2 =>
            { c2 with paragraphs := c2.paragraphs ++
                [⟨c2.paragraphs.length + 1, [⟨1, "- item one", []⟩]⟩] })
          i (flush_paragraph st).chapters } : ParseState).current = some i := by
    show (flush_paragraph st).current = some i
    rw [flush_current]
    exact hcur
  have e3 := flush_one_nonempty hc2 htext2 hs2 hsne2
  rw [e2, e3]
  constructor
  · show (modifyAt _ i (modifyAt _ i (flush_paragraph st).chapters)).get? i = _
    rw [modifyAt_get?, modifyAt_get?, hch]
    simp only [Option.map_some', Option.some.injEq]
    simp [List.append_assoc]
  · show (flush_paragraph st).current = some i
    rw [flush_current]
    exact hcur

theorem foldl_chaptersOK (lines : List String) :
    ∀ st : ParseState, chaptersOK st.chapters →
      chaptersOK (lines.foldl processLine st).chapters := by
  induction lines with
  | nil => intro st h; exact h
  | cons l rest ih =>
    intro st h
    exact ih (processLine st l) (processLine_chaptersOK h l)

theorem parse_bookOK (md : String) : bookOK (parse_markdown md) := by
  unfold parse_markdown bookOK
  dsimp only
  refine flush_chaptersOK (foldl_chaptersOK (pySplitlines md) _ ?_)
  exact ⟨rfl, fun ch hch => absurd hch (List.not_mem_nil ch)⟩

/-! ### The claims -/

/-- Claim C1, counterexample: on the input
`"# My Book\n\nby Jane Doe\n\n## Ch1\n\nHello world. This is a test.\n"` the
parser does NOT return exactly one chapter: the plain line `by Jane Doe` also
opens a fallback chapter, so there are two. -/
theorem C1_counterexample :
    (parse_markdown
      "# My Book\n\nby Jane Doe\n\n## Ch1\n\nHello world. This is a test.\n").chapters.length ≠ 1 := by
  decide

/-- Claim C1, amended: the input yields title `My Book`, authors `[Jane Doe]`,
and TWO chapters: first the fallback chapter `My Book` holding the paragraph
`by Jane Doe` (the author line is also accumulated as content), then chapter
`Ch1` with one paragraph of the two sentences in order. -/
theorem C1_amended :
    parse_markdown
      "# My Book\n\nby Jane Doe\n\n## Ch1\n\nHello world. This is a test.\n" =
      ⟨"My Book",
        [⟨1, "My Book", [⟨1, [⟨1, "by Jane Doe", []⟩]⟩]⟩,
         ⟨2, "Ch1",
          [⟨1, [⟨1, "Hello world.", []⟩, ⟨2, "This is a test.", []⟩]⟩]⟩],
        some ["Jane Doe"]⟩ := by
  decide

/-- Claim C2, counterexample: on `"Just a line.\n"` the fallback chapter title
is NOT the same string as the document title: the title defaults to
`Untitled` but the fallback chapter is created before the title default is
applied, with the fixed fallback `Section 1`. -/
theorem C2_counterexample :
    ¬((parse_markdown "Just a line.\n").chapters.map Chapter.chapter_title =
      [(parse_markdown "Just a line.\n").title]) := by
  decide

/-- Claim C2, amended: `"Just a line.\n"` yields document title `Untitled`
and one fallback chapter titled `Section 1` (not the title placeholder) with
one paragraph holding the single sentence `Just a line.`. -/
theorem C2_amended :
    parse_markdown "Just a line.\n" =
      ⟨"Untitled", [⟨1, "Section 1", [⟨1, [⟨1, "Just a line.", []⟩]⟩]⟩], none⟩ := by
  decide

/-- Claim C3, counterexample: for `"x[footnote:alpha]"` the recorded note is
NOT the text after the colon (`alpha`): the replacer takes the whole matched
group `footnote:alpha`. -/
theorem C3_counterexample :
    (extract_notes "x[footnote:alpha]").2 ≠ ["alpha"] ∧
      extract_notes "x[footnote:alpha]" = ("x", ["footnote:alpha"]) := by
  decide

/-- Claim C3, amended: for every sentence of the form
`pre ++ "[footnote:" ++ ident ++ "]" ++ post` (with `pre`, `post`, `ident`
free of brackets and `ident` nonempty), `extract_notes` removes the marker
from the cleaned text, and the appended note payload is the ENTIRE matched
bracket content `footnote:ident`, trimmed — not just the text after the
colon. -/
theorem C3_amended (pre ident post : String)
    (hpre : '[' ∉ pre.data) (hpost : '[' ∉ post.data) (hid0 : ident.data ≠ [])
    (hid1 : ']' ∉ ident.data) (hid2 : '[' ∉ ident.data) :
    extract_notes (pre ++ "[footnote:" ++ ident ++ "]" ++ post) =
      (normalize_whitespace (pre ++ post), [pyStripStr ("footnote:" ++ ident)]) :=
  extract_notes_marker pre ident post hpre hpost hid0 hid1 hid2

/-- Witness for C3_amended at `pre = "See "`, `ident = "alpha"`,
`post = " ok"`. -/
theorem C3_amended_witness :
    extract_notes ("See " ++ "[footnote:" ++ "alpha" ++ "]" ++ " ok") =
      (normalize_whitespace ("See " ++ " ok"), [pyStripStr ("footnote:" ++ "alpha")]) :=
  C3_amended "See " "alpha" " ok" (by decide) (by decide) (by decide) (by decide)
    (by decide)

/-- Claim C4: for every input string, the parsed book has chapter numbers
exactly `1, 2, ...` in order; within every chapter, paragraph numbers exactly
`1, 2, ...`; within every paragraph, sentence numbers exactly `1, 2, ...`
(equality with `List.range' 1 n` is the strictly-increasing-from-1 property). -/
theorem C4_numbering (md : String) : bookOK (parse_markdown md) :=
  parse_bookOK md

/-- Claim C5: `parse_markdown` is a total function (it returns a book for
every input string), and on the empty string it returns the default title
`Untitled`, no chapters, and no metadata field. -/
theorem C5_total :
    (∀ md : String, ∃ b : Book, parse_markdown md = b) ∧
      parse_markdown "" = ⟨"Untitled", [], none⟩ :=
  ⟨fun md => ⟨parse_markdown md, rfl⟩, by decide⟩

/-- Claim C6: first match wins for authors.  Once the author slot holds a
value, processing any further line leaves it unchanged; consequently, for
every input, the metadata is either absent or exactly one captured author. -/
theorem C6_first_match_wins :
    (∀ (st : ParseState) (a : List String) (line : String),
        st.authors = some a → (processLine st line).authors = some a) ∧
      ∀ md : String,
        (parse_markdown md).metadata = none ∨
          ∃ a, (parse_markdown md).metadata = some [a] :=
  ⟨fun _ _ line h => processLine_authors_some h line,
   fun md => parse_metadata_shape md⟩

/-- Witness for C6_first_match_wins: a state that already recorded `First`
ignores a later `by Someone Else` line. -/
theorem C6_witness :
    (processLine ⟨none, some ["First"], [], none, []⟩ "by Someone Else").authors =
      some ["First"] :=
  C6_first_match_wins.1 ⟨none, some ["First"], [], none, []⟩ ["First"]
    "by Someone Else" rfl

/-- Claim C7: with a chapter open (index `i`, post-flush content `ch`),
processing `- item one` then `- item two` first flushes the pending
paragraph (its sentences are those of `ch`, so list items never merge with
preceding prose) and then appends exactly two one-sentence paragraphs, in
list order, to the current chapter. -/
theorem C7_list_items (st : ParseState) (i : Nat) (ch : Chapter)
    (hcur : st.current = some i)
    (hch : (flush_paragraph st).chapters.get? i = some ch) :
    (processLine (processLine st "- item one") "- item two").chapters.get? i =
      some { ch with paragraphs := ch.paragraphs ++
          [⟨ch.paragraphs.length + 1, [⟨1, "- item one", []⟩]⟩,
           ⟨ch.paragraphs.length + 2, [⟨1, "- item two", []⟩]⟩] } ∧
    (processLine (processLine st "- item one") "- item two").current = some i :=
  listItem_two st i ch hcur hch

/-- Witness for C7_list_items: a chapter holding a pending prose line gains
the prose paragraph (by the flush) and then the two item paragraphs. -/
theorem C7_witness :
    (processLine
        (processLine ⟨some "T", none, [⟨1, "T", []⟩], some 0, ["prose line"]⟩
          "- item one") "- item two").chapters.get? 0 =
      some ⟨1, "T",
        [⟨1, [⟨1, "prose line", []⟩]⟩,
         ⟨2, [⟨1, "- item one", []⟩]⟩,
         ⟨3, [⟨1, "- item two", []⟩]⟩]⟩ ∧
    (processLine
        (processLine ⟨some "T", none, [⟨1, "T", []⟩], some 0, ["prose line"]⟩
          "- item one") "- item two").current = some 0 :=
  C7_list_items ⟨some "T", none, [⟨1, "T", []⟩], some 0, ["prose line"]⟩ 0
    ⟨1, "T", [⟨1, [⟨1, "prose line", []⟩]⟩]⟩ rfl (by decide)

/-- Claim C8: the sentence segmenter returns the empty sequence on empty
input; every returned sentence is whitespace-normalized (a fixed point of
`normalize_whitespace`) and nonempty; a paragraph with no terminator at all
is emitted as one sentence; and in general a final fragment lacking a
terminator is emitted as a sentence: whenever the input splits as `p ++ f`
with `p` ending in a terminator followed only by whitespace and `f` a
terminator-free fragment starting with a visible character, the result is
the sentences of `p` followed by exactly the normalized fragment. -/
theorem C8_segmenter :
    split_sentences "" = [] ∧
      (∀ p s : String, s ∈ split_sentences p →
        normalize_whitespace s = s ∧ s ≠ "") ∧
      (∀ s : String, (∀ c ∈ s.data, isTerm c = false) →
        normalize_whitespace s ≠ "" →
        split_sentences s = [normalize_whitespace s]) ∧
      ∀ (p f : String) (q W : List Char) (t c0 : Char) (frest : List Char),
        p.data = q ++ t :: W → isTerm t = true →
        (∀ c ∈ W, isPySpace c = true) →
        (∀ c ∈ f.data, isTerm c = false) →
        f.data = c0 :: frest → isPySpace c0 = false →
        split_sentences (p ++ f) = split_sentences p ++ [normalize_whitespace f] :=
  ⟨rfl, fun _ _ h => mem_split_sentences h,
   fun _ h1 h2 => split_sentences_noTerm h1 h2,
   fun p f q W t c0 frest hp ht hW hf hfd hc0 =>
     split_sentences_final_fragment p f q W t c0 frest hp ht hW hf hfd hc0⟩

/-- Witness for C8_segmenter: the terminator-free paragraph `no stops here`,
and the paragraph `Hello. world` whose trailing fragment `world` follows the
terminated sentence `Hello.`. -/
theorem C8_witness :
    split_sentences "no stops here" = [normalize_whitespace "no stops here"] ∧
      (normalize_whitespace "no stops here" = "no stops here" ∧
        "no stops here" ≠ "") ∧
      split_sentences ("Hello. " ++ "world") =
        split_sentences "Hello. " ++ [normalize_whitespace "world"] :=
  ⟨C8_segmenter.2.2.1 "no stops here" (by decide) (by decide),
   C8_segmenter.2.1 "no stops here" "no stops here" (by decide),
   C8_segmenter.2.2.2 "Hello. " "world" "Hello".data [' '] '.' 'w' "orld".data
     (by decide) (by decide) (by decide) (by decide) (by decide) (by decide)⟩

/-- Claim C9: whitespace normalization is idempotent. -/
theorem C9_normalize_idem (s : String) :
    normalize_whitespace (normalize_whitespace s) = normalize_whitespace s :=
  normalize_idem s

/-- Claim C10: when the first level-1 heading text matches the `by` pattern,
it becomes the title and no author is recorded from it (the title branch
returns before the author check); a later plain `by` line, or a later
heading whose text matches, does set the author. -/
theorem C10_title_by :
    (parse_markdown "# by Jane\n").title = "by Jane" ∧
      (parse_markdown "# by Jane\n").metadata = none ∧
      (parse_markdown "# by Jane\n\nby Bob\n").metadata = some ["Bob"] ∧
      (parse_markdown "# T\n## by Jane\n").metadata = some ["Jane"] := by
  decide

end MD
